import Mathlib

/-!
Verification of the statistical-modelling notebooks of the `data301` repository.

The only repository-defined numerical function is `neg_log_llh` in
`Content/Model/08-MLE.ipynb`:

```
def neg_log_llh(theta, data):
    mu = theta[0]
    sigma2 = theta[1]
    n = len(data)
    result = 0.5*n*np.log(2.0*np.pi*sigma2) + (1.0/(2.0*sigma2))*np.sum((data-mu)**2)
    return result
```

We embed it over exact reals (`neg_log_llh` below), and also give a Python/numpy
faithful version (`neg_log_llh_py`) that tracks numpy's non-finite values and
Python's `ZeroDivisionError`, to settle the safety and error-propagation claims.
The modelling-overview notebook's cell sequence is embedded as name-binding
cells to settle the `NameError` claim, and the TensorFlow training loop as a
fold over `range 1000`.
-/

namespace Data301

noncomputable section

/-- Value of `np.sum((data-mu)**2)` from the body of `neg_log_llh`:
the sum of squared deviations of the entries of `data` from `mu`. -/
def sumSqDev (data : List ℝ) (mu : ℝ) : ℝ :=
  (data.map (fun x => (x - mu) ^ 2)).sum

/-- Value of `data.mean()` (numpy): the arithmetic mean `np.sum(data)/len(data)`. -/
def mean (data : List ℝ) : ℝ :=
  data.sum / data.length

/-- Value of `data.var()` (numpy): the population variance, the mean of the
squared deviations from the sample mean. -/
def var (data : List ℝ) : ℝ :=
  sumSqDev data (mean data) / data.length

/-- Exact-real embedding of `neg_log_llh` from `08-MLE.ipynb`:
`0.5*n*np.log(2.0*np.pi*sigma2) + (1.0/(2.0*sigma2))*np.sum((data-mu)**2)`
with `mu = theta[0]`, `sigma2 = theta[1]`, `n = len(data)`. -/
def neg_log_llh (theta : ℝ × ℝ) (data : List ℝ) : ℝ :=
  0.5 * (data.length : ℝ) * Real.log (2 * Real.pi * theta.2)
    + (1 / (2 * theta.2)) * sumSqDev data theta.1

/-- Normal probability density function as displayed in the notebook:
`(1/sqrt(2*pi*sigma2)) * exp(-(x-mu)^2/(2*sigma2))`. -/
def normalPdf (mu sigma2 x : ℝ) : ℝ :=
  (1 / Real.sqrt (2 * Real.pi * sigma2)) * Real.exp (-(x - mu) ^ 2 / (2 * sigma2))

theorem log_normalPdf (mu sigma2 x : ℝ) (hs : 0 < sigma2) :
    Real.log (normalPdf mu sigma2 x)
      = -(Real.log (2 * Real.pi * sigma2) / 2) - (x - mu) ^ 2 / (2 * sigma2) := by
  have hA : 0 < 2 * Real.pi * sigma2 := by positivity
  have hsq : Real.sqrt (2 * Real.pi * sigma2) ≠ 0 :=
    ne_of_gt (Real.sqrt_pos.mpr hA)
  unfold normalPdf
  rw [Real.log_mul (one_div_ne_zero hsq) (Real.exp_ne_zero _), one_div, Real.log_inv,
    Real.log_sqrt hA.le, Real.log_exp]
  ring

theorem neg_sum_log_normalPdf (mu sigma2 : ℝ) (hs : 0 < sigma2) (data : List ℝ) :
    -((data.map (fun x => Real.log (normalPdf mu sigma2 x))).sum)
      = 0.5 * (data.length : ℝ) * Real.log (2 * Real.pi * sigma2)
        + (1 / (2 * sigma2)) * sumSqDev data mu := by
  induction data with
  | nil => simp [sumSqDev]
  | cons y ys ih =>
    simp only [List.map_cons, List.sum_cons, List.length_cons, sumSqDev] at *
    rw [log_normalPdf mu sigma2 y hs]
    push_cast
    linear_combination ih

/-- C1: for every real `mu`, every `sigma2 > 0` and every finite real data list,
`neg_log_llh (mu, sigma2) data` equals the negative sum over the data of the
natural log of the normal density `(1/sqrt(2*pi*sigma2))*exp(-(x-mu)^2/(2*sigma2))`,
and equivalently equals the closed form
`(n/2)*ln(2*pi*sigma2) + (1/(2*sigma2)) * sum_i (x_i - mu)^2` with `n` the length. -/
theorem neg_log_llh_eq_neg_sum_log_pdf (mu sigma2 : ℝ) (data : List ℝ) (hs : 0 < sigma2) :
    neg_log_llh (mu, sigma2) data
        = -((data.map (fun x => Real.log (normalPdf mu sigma2 x))).sum)
      ∧ neg_log_llh (mu, sigma2) data
        = ((data.length : ℝ) / 2) * Real.log (2 * Real.pi * sigma2)
          + (1 / (2 * sigma2)) * ((data.map (fun x => (x - mu) ^ 2)).sum) := by
  constructor
  · rw [neg_sum_log_normalPdf mu sigma2 hs data]
    rfl
  · show 0.5 * (data.length : ℝ) * Real.log (2 * Real.pi * sigma2)
        + (1 / (2 * sigma2)) * sumSqDev data mu = _
    unfold sumSqDev
    ring

/-- Witness for C1 at `mu = 0`, `sigma2 = 1`, `data = [0]`. -/
theorem neg_log_llh_eq_neg_sum_log_pdf_witness :
    neg_log_llh (0, 1) [0]
        = -(([(0 : ℝ)].map (fun x => Real.log (normalPdf 0 1 x))).sum)
      ∧ neg_log_llh (0, 1) [0]
        = (((([(0 : ℝ)]).length : ℝ)) / 2) * Real.log (2 * Real.pi * 1)
          + (1 / (2 * 1)) * (([(0 : ℝ)].map (fun x => (x - 0) ^ 2)).sum) :=
  neg_log_llh_eq_neg_sum_log_pdf 0 1 [0] (by norm_num)

theorem sum_map_sub (l : List ℝ) (c : ℝ) :
    (l.map (fun x => x - c)).sum = l.sum - (l.length : ℝ) * c := by
  induction l with
  | nil => simp
  | cons y ys ih =>
    simp only [List.map_cons, List.sum_cons, List.length_cons, ih]
    push_cast
    ring

theorem sum_sq_expand (l : List ℝ) (c mu : ℝ) :
    (l.map (fun x => (x - mu) ^ 2)).sum
      = (l.map (fun x => (x - c) ^ 2)).sum
        + 2 * (c - mu) * ((l.map (fun x => x - c)).sum)
        + (l.length : ℝ) * (c - mu) ^ 2 := by
  induction l with
  | nil => simp
  | cons y ys ih =>
    simp only [List.map_cons, List.sum_cons, List.length_cons]
    push_cast
    linear_combination ih

theorem sum_map_pos_of_mem (l : List ℝ) (f : ℝ → ℝ) (hnn : ∀ x ∈ l, 0 ≤ f x)
    (a : ℝ) (ha : a ∈ l) (hpos : 0 < f a) : 0 < (l.map f).sum := by
  induction l with
  | nil => simp at ha
  | cons y ys ih =>
    simp only [List.map_cons, List.sum_cons]
    rcases List.mem_cons.mp ha with rfl | ha'
    · have : 0 ≤ (ys.map f).sum := by
        apply List.sum_nonneg
        intro x hx
        rcases List.mem_map.mp hx with ⟨z, hz, rfl⟩
        exact hnn z (List.mem_cons_of_mem _ hz)
      linarith
    · have h1 : 0 ≤ f y := hnn y (List.mem_cons_self _ _)
      have h2 : 0 < (ys.map f).sum := ih (fun x hx => hnn x (List.mem_cons_of_mem _ hx)) ha'
      linarith

/-- Decomposition of the sum of squared deviations about an arbitrary point:
shifting the centre away from the sample mean adds `n * (mean - mu)^2`. -/
theorem sumSqDev_shift (data : List ℝ) (hne : data ≠ []) (mu : ℝ) :
    sumSqDev data mu = sumSqDev data (mean data) + (data.length : ℝ) * (mean data - mu) ^ 2 := by
  have hn : (data.length : ℝ) ≠ 0 := by
    have := List.length_pos.mpr hne
    positivity
  have hdev : (data.map (fun x => x - mean data)).sum = 0 := by
    rw [sum_map_sub]
    unfold mean
    field_simp
  unfold sumSqDev
  rw [sum_sq_expand data (mean data) mu, hdev]
  ring

/-- With two distinct values in the data, the population variance is positive. -/
theorem var_pos (data : List ℝ) (a b : ℝ) (ha : a ∈ data) (hb : b ∈ data) (hab : a ≠ b) :
    0 < var data := by
  have hc : ∃ c ∈ data, c ≠ mean data := by
    by_cases h : a = mean data
    · exact ⟨b, hb, fun hb' => hab (h ▸ hb' ▸ rfl)⟩
    · exact ⟨a, ha, h⟩
  obtain ⟨c, hc, hcm⟩ := hc
  have hS : 0 < sumSqDev data (mean data) := by
    apply sum_map_pos_of_mem data (fun x => (x - mean data) ^ 2)
      (fun x _ => sq_nonneg _) c hc
    have : c - mean data ≠ 0 := sub_ne_zero_of_ne hcm
    positivity
  have hn : 0 < (data.length : ℝ) := by
    have := List.length_pos.mpr (List.ne_nil_of_mem ha)
    positivity
  unfold var
  positivity

/-- Gibbs-style inequality used for the variance coordinate:
for positive `v` and `s2`, `log v + 1 ≤ log s2 + v / s2`, strictly unless `s2 = v`. -/
theorem log_add_one_le (v s2 : ℝ) (hv : 0 < v) (hs : 0 < s2) :
    Real.log v + 1 ≤ Real.log s2 + v / s2
      ∧ (s2 ≠ v → Real.log v + 1 < Real.log s2 + v / s2) := by
  have hq : 0 < v / s2 := div_pos hv hs
  have hlog : Real.log (v / s2) = Real.log v - Real.log s2 :=
    Real.log_div (ne_of_gt hv) (ne_of_gt hs)
  constructor
  · have := Real.log_le_sub_one_of_pos hq
    rw [hlog] at this
    linarith
  · intro hne
    have hq1 : v / s2 ≠ 1 := by
      intro h
      exact hne ((div_eq_one_iff_eq (ne_of_gt hs)).mp h).symm
    have := Real.log_lt_sub_one_of_pos hq hq1
    rw [hlog] at this
    linarith

/-- Main minimization lemma: with at least two distinct data values, the pair
(sample mean, population variance) strictly minimizes `neg_log_llh` over all
`mu` and all `sigma2 > 0`. -/
theorem neg_log_llh_strict_min (data : List ℝ) (a b : ℝ)
    (ha : a ∈ data) (hb : b ∈ data) (hab : a ≠ b)
    (mu sigma2 : ℝ) (hs : 0 < sigma2) (hne : (mu, sigma2) ≠ (mean data, var data)) :
    neg_log_llh (mean data, var data) data < neg_log_llh (mu, sigma2) data := by
  set m := mean data with hm
  set v := var data with hv
  have hvpos : 0 < v := var_pos data a b ha hb hab
  have hnil : data ≠ [] := List.ne_nil_of_mem ha
  have hn : 0 < (data.length : ℝ) := by
    have := List.length_pos.mpr hnil
    positivity
  have hSv : sumSqDev data m = (data.length : ℝ) * v := by
    rw [hv]
    unfold var
    field_simp
  have hlogs2 : Real.log (2 * Real.pi * sigma2) = Real.log (2 * Real.pi) + Real.log sigma2 :=
    Real.log_mul (by positivity) (ne_of_gt hs)
  have hlogv : Real.log (2 * Real.pi * v) = Real.log (2 * Real.pi) + Real.log v :=
    Real.log_mul (by positivity) (ne_of_gt hvpos)
  have key : neg_log_llh (mu, sigma2) data - neg_log_llh (m, v) data
      = ((data.length : ℝ) / 2) * ((Real.log sigma2 + v / sigma2) - (Real.log v + 1))
        + ((data.length : ℝ) * (m - mu) ^ 2) / (2 * sigma2) := by
    unfold neg_log_llh
    simp only
    rw [sumSqDev_shift data hnil mu, hSv, hlogs2, hlogv]
    field_simp
    ring
  have hgibbs := log_add_one_le v sigma2 hvpos hs
  have hsq : 0 ≤ ((data.length : ℝ) * (m - mu) ^ 2) / (2 * sigma2) := by positivity
  have hne' : ¬ (mu = m ∧ sigma2 = v) := by
    intro h
    exact hne (by rw [h.1, h.2])
  have hhalf : 0 < (data.length : ℝ) / 2 := by positivity
  by_cases hsv : sigma2 = v
  · have hmu : mu ≠ m := fun h => hne' ⟨h, hsv⟩
    have hsq2 : 0 < ((data.length : ℝ) * (m - mu) ^ 2) / (2 * sigma2) := by
      have hd : m - mu ≠ 0 := sub_ne_zero_of_ne (Ne.symm hmu)
      positivity
    have ht1 : 0 ≤ (Real.log sigma2 + v / sigma2) - (Real.log v + 1) := by
      have := hgibbs.1
      linarith
    have := mul_nonneg hhalf.le ht1
    linarith [key]
  · have ht1 : 0 < (Real.log sigma2 + v / sigma2) - (Real.log v + 1) := by
      have := hgibbs.2 hsv
      linarith
    have := mul_pos hhalf ht1
    linarith [key]

/-- C2: for every finite real data list with at least two distinct values, the pair
`(data.mean(), data.var())` has positive variance and is the unique minimizer of
`neg_log_llh` over all real `mu` and all `sigma2 > 0`: every other admissible pair
gives a strictly larger negative log-likelihood. -/
theorem mean_var_unique_minimizer (data : List ℝ) (a b : ℝ)
    (ha : a ∈ data) (hb : b ∈ data) (hab : a ≠ b) :
    0 < var data
      ∧ ∀ mu sigma2 : ℝ, 0 < sigma2 → (mu, sigma2) ≠ (mean data, var data) →
          neg_log_llh (mean data, var data) data < neg_log_llh (mu, sigma2) data :=
  ⟨var_pos data a b ha hb hab,
   fun mu sigma2 hs hne => neg_log_llh_strict_min data a b ha hb hab mu sigma2 hs hne⟩

/-- Witness for C2 at `data = [0, 1]`, comparison point `(mu, sigma2) = (0, 1)`. -/
theorem mean_var_unique_minimizer_witness :
    neg_log_llh (mean [(0 : ℝ), 1], var [(0 : ℝ), 1]) [(0 : ℝ), 1]
      < neg_log_llh (0, 1) [(0 : ℝ), 1] := by
  have hm : mean [(0 : ℝ), 1] = 1 / 2 := by norm_num [mean]
  have h := mean_var_unique_minimizer [(0 : ℝ), 1] 0 1 (by simp) (by simp) (by norm_num)
  refine h.2 0 1 (by norm_num) ?_
  rw [hm]
  intro hcontra
  have h1 : (0 : ℝ) = 1 / 2 := congrArg Prod.fst hcontra
  norm_num at h1

/-- Modelled from the spec: `scipy.stats.norm.fit` is library code not contained in
this repository; per its documented behaviour (maximum-likelihood fit of a normal
distribution) and the notebook's surrounding prose and output cells, it returns the
location `data.mean()` and the scale `sqrt(data.var())` (an estimate of sigma, not
of sigma squared). -/
def normFit (data : List ℝ) : ℝ × ℝ :=
  (mean data, Real.sqrt (var data))

theorem var_nonneg (data : List ℝ) : 0 ≤ var data := by
  unfold var sumSqDev
  have h1 : 0 ≤ (data.map (fun x => (x - mean data) ^ 2)).sum := by
    apply List.sum_nonneg
    intro x hx
    rcases List.mem_map.mp hx with ⟨z, hz, rfl⟩
    exact sq_nonneg _
  positivity

/-- C6: for every non-empty data list, the scipy fitting route agrees with the
closed-form sample statistics: `mu_hat = data.mean()` and
`sigma_hat ** 2 = data.var()`. -/
theorem normFit_eq_sample_stats (data : List ℝ) (hne : data ≠ []) :
    (normFit data).1 = mean data ∧ ((normFit data).2) ^ 2 = var data :=
  ⟨rfl, Real.sq_sqrt (var_nonneg data)⟩

/-- Witness for C6 at `data = [1, 2]`. -/
theorem normFit_eq_sample_stats_witness :
    (normFit [(1 : ℝ), 2]).1 = mean [(1 : ℝ), 2]
      ∧ ((normFit [(1 : ℝ), 2]).2) ^ 2 = var [(1 : ℝ), 2] :=
  normFit_eq_sample_stats [(1 : ℝ), 2] (by simp)

/-- C7: for every `theta` with positive variance component, `neg_log_llh` is additive
over list concatenation (independent samples), and it vanishes on the empty list. -/
theorem neg_log_llh_additive (theta : ℝ × ℝ) (d1 d2 : List ℝ) (hs : 0 < theta.2) :
    neg_log_llh theta (d1 ++ d2) = neg_log_llh theta d1 + neg_log_llh theta d2
      ∧ neg_log_llh theta [] = 0 := by
  constructor
  · unfold neg_log_llh sumSqDev
    rw [List.map_append, List.sum_append, List.length_append]
    push_cast
    ring
  · unfold neg_log_llh sumSqDev
    simp

/-- Witness for C7 at `theta = (0, 1)`, `d1 = [1]`, `d2 = [2]`. -/
theorem neg_log_llh_additive_witness :
    neg_log_llh (0, 1) ([(1 : ℝ)] ++ [(2 : ℝ)])
        = neg_log_llh (0, 1) [(1 : ℝ)] + neg_log_llh (0, 1) [(2 : ℝ)]
      ∧ neg_log_llh (0, 1) [] = 0 :=
  neg_log_llh_additive (0, 1) [(1 : ℝ)] [(2 : ℝ)] (by norm_num)

/-- Result values of numpy floating-point primitives, abstracting IEEE specials:
a finite real, one of the two infinities, or `nan`. -/
inductive NpVal where
  | fin (r : ℝ)
  | negInf
  | posInf
  | nan

/-- Behaviour of `np.log` on a real argument: finite positive arguments give the
real logarithm, `np.log(0.0)` is `-inf` (with only a runtime warning, no exception),
and a negative argument gives `nan` (again only a warning). -/
def nplog (x : ℝ) : NpVal :=
  if 0 < x then .fin (Real.log x) else if x = 0 then .negInf else .nan

/-- Multiplication of a finite float scalar with a numpy value
(`0.0 * inf` and `0.0 * nan` are `nan`). -/
def NpVal.smul (c : ℝ) : NpVal → NpVal
  | .fin r => .fin (c * r)
  | .negInf => if 0 < c then .negInf else if c = 0 then .nan else .posInf
  | .posInf => if 0 < c then .posInf else if c = 0 then .nan else .negInf
  | .nan => .nan

/-- IEEE addition on numpy values (`inf + -inf` is `nan`). -/
def NpVal.add : NpVal → NpVal → NpVal
  | .nan, _ => .nan
  | _, .nan => .nan
  | .fin a, .fin b => .fin (a + b)
  | .negInf, .posInf => .nan
  | .posInf, .negInf => .nan
  | .negInf, _ => .negInf
  | _, .negInf => .negInf
  | .posInf, _ => .posInf
  | _, .posInf => .posInf

/-- The one exception the body of `neg_log_llh` can raise: `1.0/(2.0*sigma2)` is
pure Python float division, which raises `ZeroDivisionError` on a zero divisor. -/
inductive PyErr where
  | zeroDivisionError

/-- Python/numpy-faithful embedding of `neg_log_llh`: the left summand
`0.5*n*np.log(2.0*np.pi*sigma2)` is evaluated first and never raises (numpy only
warns), then `1.0/(2.0*sigma2)` raises `ZeroDivisionError` when the divisor is
zero; otherwise the two summands are combined with IEEE addition. -/
def neg_log_llh_py (theta : ℝ × ℝ) (data : List ℝ) : Except PyErr NpVal :=
  let t1 := NpVal.smul (0.5 * (data.length : ℝ)) (nplog (2 * Real.pi * theta.2))
  if 2 * theta.2 = 0 then .error .zeroDivisionError
  else
    let t2 := NpVal.smul (1 / (2 * theta.2)) (.fin (sumSqDev data theta.1))
    .ok (t1.add t2)

/-- C5: `neg_log_llh` is total exactly on positive variance parameters: for
`sigma2 > 0` it returns the finite real computed by the exact embedding; at
`sigma2 = 0` the division `1.0/(2.0*sigma2)` raises `ZeroDivisionError`; for
`sigma2 < 0` the logarithm is taken of a negative number, yielding `nan`. -/
theorem neg_log_llh_py_trichotomy (theta : ℝ × ℝ) (data : List ℝ) :
    (0 < theta.2 → neg_log_llh_py theta data = .ok (.fin (neg_log_llh theta data)))
      ∧ (theta.2 = 0 → neg_log_llh_py theta data = .error .zeroDivisionError)
      ∧ (theta.2 < 0 →
          nplog (2 * Real.pi * theta.2) = .nan ∧ neg_log_llh_py theta data = .ok .nan) := by
  refine ⟨fun hs => ?_, fun hz => ?_, fun hneg => ?_⟩
  · have hA : 0 < 2 * Real.pi * theta.2 := by positivity
    have h2 : 2 * theta.2 ≠ 0 := by positivity
    unfold neg_log_llh_py nplog neg_log_llh
    rw [if_pos hA, if_neg h2]
    simp [NpVal.smul, NpVal.add]
  · unfold neg_log_llh_py
    rw [if_pos (by rw [hz]; ring)]
  · have hA : 2 * Real.pi * theta.2 < 0 := by
      have hpi : 0 < Real.pi := Real.pi_pos
      nlinarith
    have hlog : nplog (2 * Real.pi * theta.2) = .nan := by
      unfold nplog
      rw [if_neg (by linarith), if_neg (by linarith)]
    refine ⟨hlog, ?_⟩
    have h2 : 2 * theta.2 ≠ 0 := by
      intro h
      nlinarith
    unfold neg_log_llh_py
    rw [hlog, if_neg h2]
    simp [NpVal.smul, NpVal.add]

/-- Witness for C5 at `theta = (0, 1)`, `data = [0]`. -/
theorem neg_log_llh_py_trichotomy_witness :
    neg_log_llh_py (0, 1) [(0 : ℝ)] = .ok (.fin (neg_log_llh (0, 1) [(0 : ℝ)])) :=
  (neg_log_llh_py_trichotomy (0, 1) [(0 : ℝ)]).1 (by norm_num)

/-- C4: the repository performs no input validation and no error handling: the
only failure `neg_log_llh` can produce is the underlying library's own
`ZeroDivisionError`, produced exactly when the divisor `2.0*sigma2` is zero and
propagated untransformed; on every other input the single arithmetic expression
produces a value. -/
theorem neg_log_llh_py_no_error_handling (theta : ℝ × ℝ) (data : List ℝ) :
    (∀ e : PyErr, neg_log_llh_py theta data = .error e → e = .zeroDivisionError)
      ∧ (neg_log_llh_py theta data = .error .zeroDivisionError ↔ theta.2 = 0)
      ∧ (theta.2 ≠ 0 → ∃ v : NpVal, neg_log_llh_py theta data = .ok v) := by
  have h2 : (2 : ℝ) * theta.2 = 0 ↔ theta.2 = 0 := by
    constructor
    · intro h
      linarith
    · intro h
      rw [h]
      ring
  refine ⟨fun e he => ?_, ⟨fun he => ?_, fun hz => ?_⟩, fun hnz => ?_⟩
  · cases e
    rfl
  · by_contra hz
    have h2' : 2 * theta.2 ≠ 0 := fun h => hz (h2.mp h)
    unfold neg_log_llh_py at he
    rw [if_neg h2'] at he
    exact Except.noConfusion he
  · unfold neg_log_llh_py
    rw [if_pos (h2.mpr hz)]
  · unfold neg_log_llh_py
    rw [if_neg (fun h => hnz (h2.mp h))]
    exact ⟨_, rfl⟩

/-- Witness for C4 at `theta = (0, 0)`, `data = []`: the division by zero is the
library's error, reported as such. -/
theorem neg_log_llh_py_no_error_handling_witness :
    neg_log_llh_py (0, 0) ([] : List ℝ) = .error .zeroDivisionError :=
  ((neg_log_llh_py_no_error_handling (0, 0) ([] : List ℝ)).2.1).mpr rfl

/-- Python names read or bound by the code cells of the modelling-overview
notebook (the unnamed source file containing the soccer-goal example). -/
inductive PyName where
  | np
  | tf
  | dist
  | plt
  | beta
  | data
  | observed_data
  | beta_hat
  | best_parameter
  | new_data
deriving DecidableEq

/-- A notebook code cell, abstracted to the global names it reads from earlier
cells (in evaluation order) and the global names it binds. -/
structure Cell where
  reads : List PyName
  writes : List PyName

/-- Running one cell: the first read of a name absent from the environment raises
`NameError` for that name; otherwise the cell's bindings are added. -/
def runCell (env : List PyName) (c : Cell) : Except PyName (List PyName) :=
  match c.reads.find? (fun r => !(env.contains r)) with
  | some r => .error r
  | none => .ok (env ++ c.writes)

/-- Running a notebook: the cells execute in order from an empty environment;
a `NameError` aborts with the offending name. -/
def runNotebook (cells : List Cell) : Except PyName (List PyName) :=
  cells.foldlM runCell []

/-- The code cells of the modelling-overview notebook in order: the two import
cells; `β = 20; data = np.random.exponential(β, 100); data`;
`plt.hist(data, bins=20)`; `observed_data = np.array([...])`;
`beta_hat = observed_data.mean()`; and the prediction cell
`new_data = np.random.exponential(best_parameter, 20); new_data`
(within a cell, names bound earlier in the same cell are not reads). -/
def modellingOverviewCells : List Cell :=
  [ ⟨[], [.np, .tf, .dist]⟩,
    ⟨[], [.plt]⟩,
    ⟨[.np], [.beta, .data]⟩,
    ⟨[.plt, .data], []⟩,
    ⟨[.np], [.observed_data]⟩,
    ⟨[.observed_data], [.beta_hat]⟩,
    ⟨[.np, .best_parameter], [.new_data]⟩ ]

/-- C8: executing the modelling-overview notebook's cells in order raises a
`NameError` for `best_parameter` at the prediction cell and produces no
predictions: no cell of the notebook binds `best_parameter`, while the inference
cell binds the estimate to `beta_hat` instead. -/
theorem modelling_overview_name_error :
    runNotebook modellingOverviewCells = .error .best_parameter
      ∧ (∀ c ∈ modellingOverviewCells, PyName.best_parameter ∉ c.writes)
      ∧ PyName.beta_hat ∈ ((modellingOverviewCells.map Cell.writes).flatten) :=
  ⟨rfl, by decide, by decide⟩

/-- The TensorFlow training loop of the MLE notebook,
`for i in range(1000): sess.run(train, {x: data})`: one optimizer step per
iteration, modelled as folding an arbitrary step function over `range 1000`. -/
def runTraining {α : Type} (step : α → α) (s : α) : α :=
  (List.range 1000).foldl (fun st _ => step st) s

theorem foldl_const_step {α : Type} (step : α → α) :
    ∀ (l : List ℕ) (s : α), l.foldl (fun st _ => step st) s = step^[l.length] s := by
  intro l
  induction l with
  | nil => intro s; rfl
  | cons y ys ih =>
    intro s
    simp only [List.foldl_cons, List.length_cons, Function.iterate_succ_apply]
    exact ih (step s)

theorem succ_iterate_eq : ∀ (n m : ℕ), Nat.succ^[n] m = m + n := by
  intro n
  induction n with
  | zero => intro m; rfl
  | succ k ih =>
    intro m
    rw [Function.iterate_succ_apply, ih]
    omega

/-- C9 counterexample: the training loop body is executed 1000 times, not the 100
steps the notebook's prose announces: counting iterations with `Nat.succ` shows
the loop applies its step 1000 times, and 1000 is not 100. -/
theorem runTraining_not_100_steps :
    runTraining Nat.succ 0 = 1000 ∧ Nat.succ^[100] (0 : ℕ) = 100 ∧ (1000 : ℕ) ≠ 100 := by
  refine ⟨?_, ?_, by decide⟩
  · rw [runTraining, foldl_const_step, List.length_range, succ_iterate_eq]
  · rw [succ_iterate_eq]

/-- C9 (amended): the gradient-descent training consists of a fixed finite number
of explicitly taken steps and the loop terminates after exactly 1000 iterations:
running the loop equals applying the optimizer step exactly 1000 times. -/
theorem runTraining_eq_iterate_1000 {α : Type} (step : α → α) (s : α) :
    runTraining step s = step^[1000] s := by
  rw [runTraining, foldl_const_step, List.length_range]

end

end Data301
